import Mathlib

/-!
Shallow embedding of the `basic_asm_interpreter` register-machine
interpreter (`src/main.rs`) and verification of its specification.

Source lines are modelled as `List Char`; Rust's `u64` arithmetic is
modelled as `Nat` reduced modulo `2 ^ 64`; every fallible step returns
`Except`.  The `report_error`/`process::exit` control flow of the Rust
program is modelled by the error side of `Except`, with one constructor
per distinct diagnostic.
-/

namespace BasicAsm

/-- The `u64` modulus: register arithmetic wraps modulo `2 ^ 64`. -/
def wordMod : Nat := 2 ^ 64

/-- ASCII lowercasing of one character, the fragment of Rust's
`str::to_lowercase` relevant to ASCII assembly text. -/
def lowerC (c : Char) : Char :=
  if c.toNat ≥ 65 ∧ c.toNat ≤ 90 then Char.ofNat (c.toNat + 32) else c

/-- Whitespace test used by `split_whitespace` (ASCII space and tab). -/
def isWs (c : Char) : Bool := c = ' ' ∨ c = '\t'

/-- Does `s` start with `pat`? (Rust `str::starts_with`, on char lists.) -/
def leadsWith : List Char → List Char → Bool
  | [], _ => true
  | _ :: _, [] => false
  | p :: ps, c :: cs => p = c && leadsWith ps cs

/-- Rust `str::split_once(pat)`: the parts strictly before and after the
first occurrence of `pat`, or `none` when `pat` does not occur. -/
def splitOnce (pat : List Char) : List Char → Option (List Char × List Char)
  | [] => none
  | c :: rest =>
    if leadsWith pat (c :: rest) then some ([], (c :: rest).drop pat.length)
    else (splitOnce pat rest).map (fun p => (c :: p.1, p.2))

/-- Helper for `splitWs`: `cur` is the current token, reversed. -/
def splitWsAux (cur : List Char) : List Char → List (List Char)
  | [] => if cur = [] then [] else [cur.reverse]
  | c :: rest =>
    if isWs c then
      if cur = [] then splitWsAux [] rest else cur.reverse :: splitWsAux [] rest
    else splitWsAux (c :: cur) rest

/-- Rust `str::split_whitespace`: whitespace-separated tokens, empty
tokens dropped. -/
def splitWs (s : List Char) : List (List Char) := splitWsAux [] s

/-- Rust `str::split(sep)`: pieces between separators, empty pieces kept;
the empty string yields one empty piece. -/
def splitSep (sep : Char) : List Char → List (List Char)
  | [] => [[]]
  | c :: rest =>
    if c = sep then [] :: splitSep sep rest
    else
      match splitSep sep rest with
      | [] => [[c]]
      | t :: ts => (c :: t) :: ts

/-- Rust `str::trim` (over the modelled whitespace). -/
def trim (s : List Char) : List Char :=
  ((s.dropWhile isWs).reverse.dropWhile isWs).reverse

/-- Decimal digit value. -/
def digitVal? (c : Char) : Option Nat :=
  if c.toNat ≥ 48 ∧ c.toNat ≤ 57 then some (c.toNat - 48) else none

/-- Accumulating decimal evaluation of a digit string; fails on any
non-digit character. -/
def digitsValAux (acc : Nat) : List Char → Option Nat
  | [] => some acc
  | c :: rest =>
    match digitVal? c with
    | some d => digitsValAux (acc * 10 + d) rest
    | none => none

/-- A nonempty all-digit string evaluated in decimal. -/
def parseNatBody : List Char → Option Nat
  | [] => none
  | s => digitsValAux 0 s

/-- Rust `FromStr` for an unsigned integer of bit width `w` (`u64`, and
`usize` on a 64-bit target): optional leading `+`, then one or more
decimal digits, failing on overflow. -/
def parseUnsigned? (w : Nat) (s : List Char) : Option Nat :=
  (parseNatBody (match s with | '+' :: rest => rest | _ => s)).bind
    (fun n => if n < 2 ^ w then some n else none)

/-- Rust `FromStr` for `i64`: optional sign, decimal digits, range
`-2^63 ≤ v < 2^63`. -/
def parseI64? (s : List Char) : Option Int :=
  match s with
  | '-' :: rest =>
    (parseNatBody rest).bind (fun n => if n ≤ 2 ^ 63 then some (-(n : Int)) else none)
  | '+' :: rest =>
    (parseNatBody rest).bind (fun n => if n < 2 ^ 63 then some ((n : Int)) else none)
  | _ =>
    (parseNatBody s).bind (fun n => if n < 2 ^ 63 then some ((n : Int)) else none)

/-- Rust `i as u64`: the unsigned 64-bit pattern of a signed value. -/
def i64ToU64 (i : Int) : Nat := (i % ((2 : Int) ^ 64)).toNat

/-- The machine state of `struct State`: eight `u64` registers, the zero
flag, and the label table.  The Rust `HashMap` is modelled as an
association list where `insert` prepends and lookup takes the first
match, so later insertions shadow earlier ones exactly as
`HashMap::insert` overwrites. -/
structure St where
  registers : List Nat
  zero : Bool
  labels : List (List Char × Nat)
deriving DecidableEq, Repr

/-- `State::new()`: eight zeroed registers, clear flag, empty table. -/
def St.init : St := ⟨List.replicate 8 0, false, []⟩

/-- `State::add_label` (`HashMap::insert`, last declaration wins). -/
def addLabel (st : St) (l : List Char) (index : Nat) : St :=
  { st with labels := (l, index) :: st.labels }

/-- `HashMap::get` on the modelled label table. -/
def lookupLbl (labels : List (List Char × Nat)) (l : List Char) : Option Nat :=
  (labels.find? (fun p => p.1 = l)).map Prod.snd

/-- Register read `state[&r]` (parse guarantees `r < 8`). -/
def regGet (st : St) (r : Nat) : Nat := st.registers.getD r 0

/-- Register write `state[&r] = v`. -/
def regSet (st : St) (r : Nat) (v : Nat) : St :=
  { st with registers := st.registers.set r v }

/-- `State::with_zero`: write the register and set the flag iff the
written value is zero. -/
def withZero (st : St) (r : Nat) (v : Nat) : St :=
  { regSet st r v with zero := decide (v = 0) }

/-- The `enum Instruction` of the interpreter. -/
inductive Instruction where
  | noop
  | debug
  | zero (reg : Nat)
  | mov (dst fr : Nat)
  | add (dst op1 op2 : Nat)
  | sub (dst op1 op2 : Nat)
  | inc (reg : Nat)
  | dec (reg : Nat)
  | and (dst op1 op2 : Nat)
  | or (dst op1 op2 : Nat)
  | xor (dst op1 op2 : Nat)
  | not (reg : Nat)
  | shl (reg amount : Nat)
  | shr (reg amount : Nat)
  | jz (label : List Char)
  | jnz (label : List Char)
  | j (label : List Char)
deriving DecidableEq, Repr

/-- The distinct fatal diagnostics of the parsing phase. -/
inductive ParseErr where
  | garbageOperand (line : Nat)
  | regNotExist (reg : Nat)
  | garbageInstruction (first : List Char)
deriving DecidableEq, Repr

/-- The fatal diagnostics of the execution phase.  `oob` models the
panic Rust would hit indexing past the end of the instruction vector;
it is proved unreachable. -/
inductive ExecErr where
  | unknownLabel (label : List Char) (line : Nat)
  | oob (pc : Nat)
deriving DecidableEq, Repr

/-- The `r<N>` shape test inside `read_reg_`: the token, trimmed, must
start with `r` and the remainder must parse as a `usize`. -/
def regOf? (t : List Char) : Option Nat :=
  match trim t with
  | 'r' :: tail => parseUnsigned? 64 tail
  | _ => none

/-- `read_reg_`: next operand as a register number, `none` when the
iterator is exhausted or the token is malformed. -/
def read_reg_ : List (List Char) → Option (Nat × List (List Char))
  | [] => none
  | t :: rest => (regOf? t).map (fun v => (v, rest))

/-- `read_reg`: fatal `garbage following instruction on line index+1` on
a malformed or missing operand, fatal `r<N> does not exist` on `N ≥ 8`. -/
def read_reg (operands : List (List Char)) (index : Nat) :
    Except ParseErr (Nat × List (List Char)) :=
  match read_reg_ operands with
  | some (reg, rest) =>
    if reg ≥ 8 then .error (.regNotExist reg) else .ok (reg, rest)
  | none => .error (.garbageOperand (index + 1))

/-- The `u64` immediate test inside `read_imm_`. -/
def immOf? (t : List Char) : Option Nat := parseUnsigned? 64 (trim t)

/-- `read_imm_`. -/
def read_imm_ : List (List Char) → Option (Nat × List (List Char))
  | [] => none
  | t :: rest => (immOf? t).map (fun v => (v, rest))

/-- `read_imm`. -/
def read_imm (operands : List (List Char)) (index : Nat) :
    Except ParseErr (Nat × List (List Char)) :=
  match read_imm_ operands with
  | some p => .ok p
  | none => .error (.garbageOperand (index + 1))

/-- `read_label`: any present token, trimmed, is accepted as a label. -/
def read_label (operands : List (List Char)) (index : Nat) :
    Except ParseErr (List Char × List (List Char)) :=
  match operands with
  | [] => .error (.garbageOperand (index + 1))
  | t :: rest => .ok (trim t, rest)

/-- The comment stripping exactly as `Instruction::parse` performs it:
all three `split_once` calls are applied to the full `lowercase` line
(the Rust code shadows `code` but keeps splitting `lowercase`), each
present marker overwriting the previous cut, with the previous cut kept
only when the marker is absent. -/
def stripComment (lowercase : List Char) : List Char :=
  let code := ((splitOnce ['/', '/'] lowercase).map Prod.fst).getD lowercase
  let code := ((splitOnce [';'] lowercase).map Prod.fst).getD code
  ((splitOnce ['#'] lowercase).map Prod.fst).getD code

/-- Modelled from the spec: the comment stripping the specification
describes, in which each later marker is checked against the text
already truncated by the earlier markers (`//`, then `;`, then `#`,
each cutting the possibly already-cut text). -/
def stripCommentSeq (lowercase : List Char) : List Char :=
  let code := ((splitOnce ['/', '/'] lowercase).map Prod.fst).getD lowercase
  let code2 := ((splitOnce [';'] code).map Prod.fst).getD code
  ((splitOnce ['#'] code2).map Prod.fst).getD code2

/-- Mnemonic token `zero`. -/
def mZERO : List Char := ['z', 'e', 'r', 'o']

/-- Mnemonic token `debug`. -/
def mDEBUG : List Char := ['d', 'e', 'b', 'u', 'g']

/-- Mnemonic token `mov`. -/
def mMOV : List Char := ['m', 'o', 'v']

/-- Mnemonic token `add`. -/
def mADD : List Char := ['a', 'd', 'd']

/-- Mnemonic token `sub`. -/
def mSUB : List Char := ['s', 'u', 'b']

/-- Mnemonic token `inc`. -/
def mINC : List Char := ['i', 'n', 'c']

/-- Mnemonic token `dec`. -/
def mDEC : List Char := ['d', 'e', 'c']

/-- Mnemonic token `and`. -/
def mAND : List Char := ['a', 'n', 'd']

/-- Mnemonic token `or`. -/
def mOR : List Char := ['o', 'r']

/-- Mnemonic token `xor`. -/
def mXOR : List Char := ['x', 'o', 'r']

/-- Mnemonic token `not`. -/
def mNOT : List Char := ['n', 'o', 't']

/-- Mnemonic token `shl`. -/
def mSHL : List Char := ['s', 'h', 'l']

/-- Mnemonic token `shr`. -/
def mSHR : List Char := ['s', 'h', 'r']

/-- Mnemonic token `jz`. -/
def mJZ : List Char := ['j', 'z']

/-- Mnemonic token `jnz`. -/
def mJNZ : List Char := ['j', 'n', 'z']

/-- Mnemonic token `j`. -/
def mJ : List Char := ['j']

/-- The closed set of recognized mnemonics. -/
inductive Mnemonic where
  | zero | debug | mov | add | sub | inc | dec | and | or | xor | not
  | shl | shr | jz | jnz | j
deriving DecidableEq, Repr

/-- Which arm of the mnemonic match of `Instruction::parse` a first
token selects, `none` for the label fallthrough arm.  The token is
matched as-is: the line was already lowercased, and `split_whitespace`
tokens are their own trim. -/
def mnemonic? (first : List Char) : Option Mnemonic :=
  if first = mZERO then some .zero
  else if first = mDEBUG then some .debug
  else if first = mMOV then some .mov
  else if first = mADD then some .add
  else if first = mSUB then some .sub
  else if first = mINC then some .inc
  else if first = mDEC then some .dec
  else if first = mAND then some .and
  else if first = mOR then some .or
  else if first = mXOR then some .xor
  else if first = mNOT then some .not
  else if first = mSHL then some .shl
  else if first = mSHR then some .shr
  else if first = mJZ then some .jz
  else if first = mJNZ then some .jnz
  else if first = mJ then some .j
  else none

/-- The operand reading of one mnemonic arm of `Instruction::parse`:
reads happen left to right, the first failure wins, exactly as the Rust
struct-literal field order evaluates the `read_*` calls. -/
def parseOps (m : Mnemonic) (index : Nat) (ops : List (List Char)) :
    Except ParseErr Instruction :=
  match m with
  | .zero =>
    match read_reg ops index with
    | .error e => .error e
    | .ok (r, _) => .ok (.zero r)
  | .debug => .ok .debug
  | .mov =>
    match read_reg ops index with
    | .error e => .error e
    | .ok (a, ops1) =>
      match read_reg ops1 index with
      | .error e => .error e
      | .ok (b, _) => .ok (.mov a b)
  | .add =>
    match read_reg ops index with
    | .error e => .error e
    | .ok (a, ops1) =>
      match read_reg ops1 index with
      | .error e => .error e
      | .ok (b, ops2) =>
        match read_reg ops2 index with
        | .error e => .error e
        | .ok (c, _) => .ok (.add a b c)
  | .sub =>
    match read_reg ops index with
    | .error e => .error e
    | .ok (a, ops1) =>
      match read_reg ops1 index with
      | .error e => .error e
      | .ok (b, ops2) =>
        match read_reg ops2 index with
        | .error e => .error e
        | .ok (c, _) => .ok (.sub a b c)
  | .inc =>
    match read_reg ops index with
    | .error e => .error e
    | .ok (r, _) => .ok (.inc r)
  | .dec =>
    match read_reg ops index with
    | .error e => .error e
    | .ok (r, _) => .ok (.dec r)
  | .and =>
    match read_reg ops index with
    | .error e => .error e
    | .ok (a, ops1) =>
      match read_reg ops1 index with
      | .error e => .error e
      | .ok (b, ops2) =>
        match read_reg ops2 index with
        | .error e => .error e
        | .ok (c, _) => .ok (.and a b c)
  | .or =>
    match read_reg ops index with
    | .error e => .error e
    | .ok (a, ops1) =>
      match read_reg ops1 index with
      | .error e => .error e
      | .ok (b, ops2) =>
        match read_reg ops2 index with
        | .error e => .error e
        | .ok (c, _) => .ok (.or a b c)
  | .xor =>
    match read_reg ops index with
    | .error e => .error e
    | .ok (a, ops1) =>
      match read_reg ops1 index with
      | .error e => .error e
      | .ok (b, ops2) =>
        match read_reg ops2 index with
        | .error e => .error e
        | .ok (c, _) => .ok (.xor a b c)
  | .not =>
    match read_reg ops index with
    | .error e => .error e
    | .ok (r, _) => .ok (.not r)
  | .shl =>
    match read_reg ops index with
    | .error e => .error e
    | .ok (r, ops1) =>
      match read_imm ops1 index with
      | .error e => .error e
      | .ok (a, _) => .ok (.shl r a)
  | .shr =>
    match read_reg ops index with
    | .error e => .error e
    | .ok (r, ops1) =>
      match read_imm ops1 index with
      | .error e => .error e
      | .ok (a, _) => .ok (.shr r a)
  | .jz =>
    match read_label ops index with
    | .error e => .error e
    | .ok (l, _) => .ok (.jz l)
  | .jnz =>
    match read_label ops index with
    | .error e => .error e
    | .ok (l, _) => .ok (.jnz l)
  | .j =>
    match read_label ops index with
    | .error e => .error e
    | .ok (l, _) => .ok (.j l)

/-- The mnemonic dispatch of `Instruction::parse`: `some` with the
operand-reading result when the first token is a known mnemonic, `none`
when the token is not a mnemonic (the label fallthrough arm). -/
def parseInstr (index : Nat) (first : List Char) (ops : List (List Char)) :
    Option (Except ParseErr Instruction) :=
  (mnemonic? first).map (fun m => parseOps m index ops)

/-- One line of `Instruction::parse`: lowercase, strip the comment,
tokenize on whitespace, re-split the concatenated remaining tokens on
commas, dispatch on the first token; a non-mnemonic first token must be
a `name:` label declaration registered at the current index, the line
becoming `Noop`. -/
def parseLine (st : St) (index : Nat) (src : List Char) :
    Except ParseErr (Instruction × St) :=
  match splitWs (stripComment (src.map lowerC)) with
  | [] => .ok (.noop, st)
  | first :: rest =>
    match parseInstr index first (splitSep ',' rest.flatten) with
    | some r =>
      match r with
      | .ok ins => .ok (ins, st)
      | .error e => .error e
    | none =>
      match splitOnce [':'] first with
      | some p => .ok (.noop, addLabel st p.1 index)
      | none => .error (.garbageInstruction first)

/-- The enumerated left-to-right parse of all source lines
(`content.lines().enumerate().map(Instruction::parse(&mut state))`),
threading the state through each line. -/
def parseGo : List (List Char) → Nat → St → Except ParseErr (List Instruction × St)
  | [], _, st => .ok ([], st)
  | l :: ls, i, st =>
    match parseLine st i l with
    | .error e => .error e
    | .ok (ins, st1) =>
      match parseGo ls (i + 1) st1 with
      | .error e => .error e
      | .ok (rest, st2) => .ok (ins :: rest, st2)

/-- Parsing the whole program, starting at line index 0. -/
def parseProgram (lines : List (List Char)) (st : St) :
    Except ParseErr (List Instruction × St) :=
  parseGo lines 0 st

/-- Label resolution inside a jump arm of `Instruction::apply`: a hit
returns the stored index as the next program counter, a miss is the
fatal `unknown label … on line index+1` error. -/
def jumpTo (st : St) (l : List Char) (index : Nat) : Except ExecErr (St × Nat) :=
  match lookupLbl st.labels l with
  | some t => .ok (st, t)
  | none => .error (.unknownLabel l (index + 1))

/-- `Instruction::apply`: the per-instruction state transition, returning
the updated state and the next program counter.  `Debug` only performs
I/O, so on the machine state it acts as the identity.  The `Shl`/`Shr`
value semantics embedded here (shift then reduce modulo `2 ^ 64`) is
faithful for `amount < 64`; Rust's shift for `amount ≥ 64` is an
overflowing operation whose outcome depends on the build profile. -/
def applyI (i : Instruction) (st : St) (index : Nat) : Except ExecErr (St × Nat) :=
  match i with
  | .noop => .ok (st, index + 1)
  | .debug => .ok (st, index + 1)
  | .zero r => .ok (regSet st r 0, index + 1)
  | .mov a b => .ok (regSet st a (regGet st b), index + 1)
  | .add a b c => .ok (withZero st a ((regGet st b + regGet st c) % wordMod), index + 1)
  | .sub a b c =>
    .ok (withZero st a ((regGet st b + (wordMod - regGet st c)) % wordMod), index + 1)
  | .inc r => .ok (withZero st r ((regGet st r + 1) % wordMod), index + 1)
  | .dec r => .ok (withZero st r ((regGet st r + (wordMod - 1)) % wordMod), index + 1)
  | .and a b c => .ok (withZero st a (Nat.land (regGet st b) (regGet st c)), index + 1)
  | .or a b c => .ok (withZero st a (Nat.lor (regGet st b) (regGet st c)), index + 1)
  | .xor a b c => .ok (withZero st a (Nat.xor (regGet st b) (regGet st c)), index + 1)
  | .not r => .ok (withZero st r (wordMod - 1 - regGet st r), index + 1)
  | .shl r amount => .ok (regSet st r ((regGet st r <<< amount) % wordMod), index + 1)
  | .shr r amount => .ok (regSet st r (regGet st r >>> amount), index + 1)
  | .jz l => if st.zero then jumpTo st l index else .ok (st, index + 1)
  | .jnz l => if !st.zero then jumpTo st l index else .ok (st, index + 1)
  | .j l => jumpTo st l index

/-- The fetch-execute loop of `main` (`while pc != instruction.len()`),
with explicit fuel since an assembly program may loop forever: `none`
means the fuel ran out with the machine still running.  A program
counter beyond the instruction count would make the Rust indexing
panic; that is the `oob` error, proved unreachable. -/
def runMachine (fuel : Nat) (prog : List Instruction) (st : St) (pc : Nat) :
    Except ExecErr (Option St) :=
  match fuel with
  | 0 => .ok none
  | Nat.succ f =>
    if pc = prog.length then .ok (some st)
    else
      match prog.get? pc with
      | none => .error (.oob pc)
      | some i =>
        match applyI i st pc with
        | .error e => .error e
        | .ok (st1, pc1) => runMachine f prog st1 pc1

/-- The fatal diagnostics of the whole process, in the order `main` can
hit them: a register-override argument error, a parse error, an
execution error. -/
inductive MainErr where
  | badArg (arg : List Char)
  | regNotExistArg (reg : Nat)
  | parse (e : ParseErr)
  | exec (e : ExecErr)
deriving DecidableEq, Repr

/-- The value part of `interpret_arg`: parse as `u64`, or else as `i64`
reinterpreted as its unsigned 64-bit pattern. -/
def parseValue? (s : List Char) : Option Nat :=
  match parseUnsigned? 64 s with
  | some v => some v
  | none => (parseI64? s).map i64ToU64

/-- `interpret_arg`: split on `=`, parse the value, require the name to
start with `r` or `R`, parse the register number, and reject `N ≥ 8`
fatally; every other malformation is the `Unable to parse arg` error. -/
def interpretArg (arg : List Char) : Except MainErr (Nat × Nat) :=
  match splitOnce ['='] arg with
  | none => .error (.badArg arg)
  | some (before, after) =>
    match parseValue? after with
    | none => .error (.badArg arg)
    | some v =>
      match
        (match before with
         | 'r' :: tail => some tail
         | 'R' :: tail => some tail
         | _ => none) with
      | none => .error (.badArg arg)
      | some tail =>
        match parseUnsigned? 64 tail with
        | none => .error (.badArg arg)
        | some reg =>
          if reg ≥ 8 then .error (.regNotExistArg reg) else .ok (reg, v)

/-- The register-override loop of `main`: each argument seeds one
register (`state[&reg] = Wrapping(val)`), the first bad argument is
fatal. -/
def applyArgs (args : List (List Char)) (st : St) : Except MainErr St :=
  match args with
  | [] => .ok st
  | a :: rest =>
    match interpretArg a with
    | .error e => .error e
    | .ok (reg, v) => applyArgs rest (regSet st reg v)

/-- The whole pipeline of `main` after the source file is read:
process the override arguments, then parse every line, then run the
fetch-execute loop from program counter 0. -/
def mainRun (args lines : List (List Char)) (fuel : Nat) :
    Except MainErr (Option St) :=
  match applyArgs args St.init with
  | .error e => .error e
  | .ok st =>
    match parseProgram lines st with
    | .error e => .error (.parse e)
    | .ok (prog, st1) =>
      match runMachine fuel prog st1 0 with
      | .error e => .error (.exec e)
      | .ok r => .ok r

/-- Classification of a source line as a label declaration, read off the
fallthrough arm of the parser's dispatch: the first token of the
comment-stripped lowercased line is no mnemonic and splits at a `:`;
the declared name is the part before the first `:` of that token. -/
def labelOf (src : List Char) : Option (List Char) :=
  match splitWs (stripComment (src.map lowerC)) with
  | [] => none
  | first :: _ =>
    if (mnemonic? first).isSome then none
    else (splitOnce [':'] first).map Prod.fst

/-- The label declarations a parse of `ls` starting at line index `i`
inserts, most recent first — the shape `parseGo` leaves the modelled
`HashMap` in. -/
def declsOf : List (List Char) → Nat → List (List Char × Nat)
  | [], _ => []
  | l :: ls, i =>
    declsOf ls (i + 1) ++ (match labelOf l with | some s => [(s, i)] | none => [])

deriving instance DecidableEq for Except

/-- A line whose comment markers expose the stripping order:
`inc r1 // c ; d`. -/
def lineStripBug : List Char :=
  ['i', 'n', 'c', ' ', 'r', '1', ' ', '/', '/', ' ', 'c', ' ', ';', ' ', 'd']

/-- C1.  The parser does NOT cut comment markers sequentially against the
already-truncated text: every `split_once` in the source is applied to
the full lowercased line, so a later marker that occurs anywhere in the
original line overrides the earlier cut.  On `inc r1 // c ; d` the code
keeps `inc r1 // c ` (the prefix before the `;` of the original line)
instead of the spec's `inc r1 `, and the line, which the spec-described
stripping would parse as `Inc r1`, becomes a fatal operand error. -/
theorem comment_strip_code_bug :
    stripComment lineStripBug = ['i', 'n', 'c', ' ', 'r', '1', ' ', '/', '/', ' ', 'c', ' ']
    ∧ stripCommentSeq lineStripBug = ['i', 'n', 'c', ' ', 'r', '1', ' ']
    ∧ stripComment lineStripBug ≠ stripCommentSeq lineStripBug
    ∧ parseLine St.init 0 lineStripBug = .error (.garbageOperand 1)
    ∧ parseLine St.init 0 (stripCommentSeq lineStripBug) = .ok (.inc 1, St.init) := by
  exact ⟨by decide, by decide, by decide, by decide, by decide⟩

/-- The line `zero r1,r2`: one register operand expected, two given. -/
def lineZeroSurplus : List Char :=
  ['z', 'e', 'r', 'o', ' ', 'r', '1', ',', 'r', '2']

/-- The line `j` with no operand at all. -/
def lineJAlone : List Char := ['j']

/-- C2 counterexample.  An operand-count mismatch is NOT always fatal:
`zero r1,r2` carries a surplus operand yet parses to `Zero r1` with the
extra token silently ignored, and the operand-less `j` parses to a jump
to the empty label (`split(",")` on the empty remainder yields one empty
token, which `read_label` accepts). -/
theorem operand_surplus_accepted :
    parseLine St.init 0 lineZeroSurplus = .ok (.zero 1, St.init)
    ∧ parseLine St.init 0 lineJAlone = .ok (.j [], St.init) := by
  exact ⟨by decide, by decide⟩

/-- The line `mov r1` (second register operand missing). -/
def lineMovMissing : List Char := ['m', 'o', 'v', ' ', 'r', '1']

/-- The line `zero r8` (register out of range). -/
def lineZeroR8 : List Char := ['z', 'e', 'r', 'o', ' ', 'r', '8']

/-- C2 as amended.  Register and immediate reading is strict: a missing
operand or a token that fails the `r<N>`/`u64` shape is the fatal
`garbage following instruction` error carrying the 1-based source line,
and `N ≥ 8` is the fatal `r<N> does not exist` error; label operands
accept any present token, including the empty token an operand-less
jump line produces; surplus operands beyond the mnemonic's shape are
silently ignored. -/
theorem operand_reading_strictness :
    (∀ idx : Nat, read_reg [] idx = .error (.garbageOperand (idx + 1)))
    ∧ (∀ (idx : Nat) (t : List Char) (rest : List (List Char)),
        regOf? t = none → read_reg (t :: rest) idx = .error (.garbageOperand (idx + 1)))
    ∧ (∀ (idx : Nat) (t : List Char) (rest : List (List Char)) (n : Nat),
        regOf? t = some n → 8 ≤ n → read_reg (t :: rest) idx = .error (.regNotExist n))
    ∧ (∀ (idx : Nat) (t : List Char) (rest : List (List Char)) (n : Nat),
        regOf? t = some n → n < 8 → read_reg (t :: rest) idx = .ok (n, rest))
    ∧ (∀ idx : Nat, read_imm [] idx = .error (.garbageOperand (idx + 1)))
    ∧ (∀ (idx : Nat) (t : List Char) (rest : List (List Char)),
        immOf? t = none → read_imm (t :: rest) idx = .error (.garbageOperand (idx + 1)))
    ∧ (∀ (idx : Nat) (t : List Char) (rest : List (List Char)),
        read_label (t :: rest) idx = .ok (trim t, rest))
    ∧ (regOf? ['r', '9'] = some 9 ∧ regOf? ['x', '1'] = none ∧ regOf? ['r'] = none
        ∧ regOf? ['r', '-', '1'] = none ∧ regOf? ['r', '1', '.', '5'] = none
        ∧ immOf? ['r', '1'] = none ∧ immOf? ['6', '4'] = some 64)
    ∧ parseLine St.init 0 lineZeroSurplus = .ok (.zero 1, St.init)
    ∧ parseLine St.init 4 lineMovMissing = .error (.garbageOperand 5)
    ∧ parseLine St.init 0 lineZeroR8 = .error (.regNotExist 8) := by
  refine ⟨?_, ?_, ?_, ?_, ?_, ?_, ?_, by decide, by decide, by decide, by decide⟩
  · intro idx
    rfl
  · intro idx t rest h
    simp [read_reg, read_reg_, h]
  · intro idx t rest n h hn
    simp [read_reg, read_reg_, h, hn]
  · intro idx t rest n h hn
    simp [read_reg, read_reg_, h, Nat.not_le.mpr hn]
  · intro idx
    rfl
  · intro idx t rest h
    simp [read_imm, read_imm_, h]
  · intro idx t rest
    rfl

/-- C2 witness: the strictness clauses applied at concrete inputs. -/
theorem operand_reading_strictness_witness :
    read_reg [['x', '1']] 0 = .error (.garbageOperand 1)
    ∧ read_reg [['r', '9']] 2 = .error (.regNotExist 9)
    ∧ read_reg [['r', '5'], ['r', '1']] 0 = .ok (5, [['r', '1']]) := by
  exact ⟨operand_reading_strictness.2.1 0 ['x', '1'] [] (by decide),
    operand_reading_strictness.2.2.1 2 ['r', '9'] [] 9 (by decide) (by decide),
    operand_reading_strictness.2.2.2.1 0 ['r', '5'] [['r', '1']] 5 (by decide) (by decide)⟩

/-- The destination register of the instructions the spec lists as
zero-flag writers (the ones `Instruction::apply` routes through
`State::with_zero`); `none` for every other instruction. -/
def destOf : Instruction → Option Nat
  | .add r _ _ => some r
  | .sub r _ _ => some r
  | .inc r => some r
  | .dec r => some r
  | .and r _ _ => some r
  | .or r _ _ => some r
  | .xor r _ _ => some r
  | .not r => some r
  | _ => none

/-- The zero flag after one successful execution step. -/
def zeroAfter (i : Instruction) (st : St) (idx : Nat) : Option Bool :=
  match applyI i st idx with
  | .ok (s, _) => some s.zero
  | .error _ => none

/-- The flag field written by `with_zero`. -/
theorem withZero_zero (st : St) (r v : Nat) :
    (withZero st r v).zero = decide (v = 0) := rfl

/-- Reading back the register written by `with_zero`. -/
theorem regGet_withZero (st : St) (r v : Nat) (h : r < st.registers.length) :
    regGet (withZero st r v) r = v := by
  simp [regGet, withZero, regSet, List.getD_eq_getElem?_getD,
    List.getElem?_set_eq_of_lt _ h]

/-- C3.  `Add`, `Sub`, `Inc`, `Dec`, `And`, `Or`, `Xor`, `Not` set the
zero flag to true exactly when the value written to their destination
register is zero, while every other instruction (`Mov`, `Zero`, `Shl`,
`Shr`, `Noop`, `Debug` and the jumps) leaves the flag unchanged. -/
theorem zero_flag_discipline (i : Instruction) (st : St) (idx : Nat)
    (st2 : St) (pc2 : Nat)
    (hlen : st.registers.length = 8)
    (hdst : ∀ r, destOf i = some r → r < 8)
    (h : applyI i st idx = .ok (st2, pc2)) :
    match destOf i with
    | some r => st2.zero = decide (regGet st2 r = 0)
    | none => st2.zero = st.zero := by
  cases i with
  | noop =>
    simp only [applyI, Except.ok.injEq, Prod.mk.injEq] at h
    obtain ⟨rfl, rfl⟩ := h
    simp [destOf]
  | debug =>
    simp only [applyI, Except.ok.injEq, Prod.mk.injEq] at h
    obtain ⟨rfl, rfl⟩ := h
    simp [destOf]
  | zero r =>
    simp only [applyI, Except.ok.injEq, Prod.mk.injEq] at h
    obtain ⟨rfl, rfl⟩ := h
    simp [destOf, regSet]
  | mov a b =>
    simp only [applyI, Except.ok.injEq, Prod.mk.injEq] at h
    obtain ⟨rfl, rfl⟩ := h
    simp [destOf, regSet]
  | add a b c =>
    simp only [applyI, Except.ok.injEq, Prod.mk.injEq] at h
    obtain ⟨rfl, rfl⟩ := h
    have ha : a < st.registers.length := by rw [hlen]; exact hdst a rfl
    simp [destOf, regGet_withZero _ _ _ ha, withZero_zero]
  | sub a b c =>
    simp only [applyI, Except.ok.injEq, Prod.mk.injEq] at h
    obtain ⟨rfl, rfl⟩ := h
    have ha : a < st.registers.length := by rw [hlen]; exact hdst a rfl
    simp [destOf, regGet_withZero _ _ _ ha, withZero_zero]
  | inc r =>
    simp only [applyI, Except.ok.injEq, Prod.mk.injEq] at h
    obtain ⟨rfl, rfl⟩ := h
    have hr : r < st.registers.length := by rw [hlen]; exact hdst r rfl
    simp [destOf, regGet_withZero _ _ _ hr, withZero_zero]
  | dec r =>
    simp only [applyI, Except.ok.injEq, Prod.mk.injEq] at h
    obtain ⟨rfl, rfl⟩ := h
    have hr : r < st.registers.length := by rw [hlen]; exact hdst r rfl
    simp [destOf, regGet_withZero _ _ _ hr, withZero_zero]
  | and a b c =>
    simp only [applyI, Except.ok.injEq, Prod.mk.injEq] at h
    obtain ⟨rfl, rfl⟩ := h
    have ha : a < st.registers.length := by rw [hlen]; exact hdst a rfl
    simp [destOf, regGet_withZero _ _ _ ha, withZero_zero]
  | or a b c =>
    simp only [applyI, Except.ok.injEq, Prod.mk.injEq] at h
    obtain ⟨rfl, rfl⟩ := h
    have ha : a < st.registers.length := by rw [hlen]; exact hdst a rfl
    simp [destOf, regGet_withZero _ _ _ ha, withZero_zero]
  | xor a b c =>
    simp only [applyI, Except.ok.injEq, Prod.mk.injEq] at h
    obtain ⟨rfl, rfl⟩ := h
    have ha : a < st.registers.length := by rw [hlen]; exact hdst a rfl
    simp [destOf, regGet_withZero _ _ _ ha, withZero_zero]
  | not r =>
    simp only [applyI, Except.ok.injEq, Prod.mk.injEq] at h
    obtain ⟨rfl, rfl⟩ := h
    have hr : r < st.registers.length := by rw [hlen]; exact hdst r rfl
    simp [destOf, regGet_withZero _ _ _ hr, withZero_zero]
  | shl r a =>
    simp only [applyI, Except.ok.injEq, Prod.mk.injEq] at h
    obtain ⟨rfl, rfl⟩ := h
    simp [destOf, regSet]
  | shr r a =>
    simp only [applyI, Except.ok.injEq, Prod.mk.injEq] at h
    obtain ⟨rfl, rfl⟩ := h
    simp [destOf, regSet]
  | jz l =>
    simp only [applyI] at h
    cases hz : st.zero with
    | false =>
      simp only [hz, Bool.false_eq_true, if_false, Except.ok.injEq, Prod.mk.injEq] at h
      obtain ⟨rfl, rfl⟩ := h
      simp [destOf, hz]
    | true =>
      simp only [hz, if_true] at h
      cases hl : lookupLbl st.labels l with
      | none => simp [jumpTo, hl] at h
      | some t =>
        simp only [jumpTo, hl, Except.ok.injEq, Prod.mk.injEq] at h
        obtain ⟨rfl, rfl⟩ := h
        simp [destOf, hz]
  | jnz l =>
    simp only [applyI] at h
    cases hz : st.zero with
    | true =>
      simp only [hz, Bool.not_true, Bool.false_eq_true, if_false,
        Except.ok.injEq, Prod.mk.injEq] at h
      obtain ⟨rfl, rfl⟩ := h
      simp [destOf, hz]
    | false =>
      simp only [hz, Bool.not_false, if_true] at h
      cases hl : lookupLbl st.labels l with
      | none => simp [jumpTo, hl] at h
      | some t =>
        simp only [jumpTo, hl, Except.ok.injEq, Prod.mk.injEq] at h
        obtain ⟨rfl, rfl⟩ := h
        simp [destOf, hz]
  | j l =>
    simp only [applyI] at h
    cases hl : lookupLbl st.labels l with
    | none => simp [jumpTo, hl] at h
    | some t =>
      simp only [jumpTo, hl, Except.ok.injEq, Prod.mk.injEq] at h
      obtain ⟨rfl, rfl⟩ := h
      simp [destOf]

/-- The state one `Inc r0` step from the initial state produces. -/
def incSt : St := withZero St.init 0 ((regGet St.init 0 + 1) % wordMod)

/-- C3 witness: the flag discipline applied to `Inc r0` from the initial
state. -/
theorem zero_flag_discipline_witness :
    incSt.zero = decide (regGet incSt 0 = 0) :=
  zero_flag_discipline (.inc 0) St.init 0 incSt 1 (by decide)
    (by intro r hr; simp [destOf] at hr; omega) rfl

/-- C4.  With the jump's label resolving to index `t`: `Jz` jumps to `t`
exactly when the flag is true and otherwise falls through to `idx + 1`,
`Jnz` jumps exactly when the flag is false, `J` always jumps; in every
case the state (registers, flag, labels) is returned unchanged. -/
theorem jump_semantics (st : St) (l : List Char) (idx t : Nat)
    (hl : lookupLbl st.labels l = some t) :
    (st.zero = true → applyI (.jz l) st idx = .ok (st, t))
    ∧ (st.zero = false → applyI (.jz l) st idx = .ok (st, idx + 1))
    ∧ (st.zero = false → applyI (.jnz l) st idx = .ok (st, t))
    ∧ (st.zero = true → applyI (.jnz l) st idx = .ok (st, idx + 1))
    ∧ applyI (.j l) st idx = .ok (st, t) := by
  refine ⟨?_, ?_, ?_, ?_, ?_⟩ <;>
    first
      | (intro hz; simp [applyI, hz, jumpTo, hl])
      | simp [applyI, jumpTo, hl]

/-- A state whose flag is set and whose table maps `x` to 5. -/
def jmpSt : St := ⟨List.replicate 8 0, true, [(['x'], 5)]⟩

/-- C4 witness: a taken `Jz` from a concrete state. -/
theorem jump_semantics_witness :
    applyI (.jz ['x']) jmpSt 3 = .ok (jmpSt, 5) :=
  (jump_semantics jmpSt ['x'] 3 5 (by decide)).1 rfl

/-- C5.  Wrapping arithmetic: `Add` of the maximal value and 1 writes 0
and sets the flag; `Sub` of 0 minus 1 writes the maximal value and
leaves the flag false; the flag `Inc`/`Dec` compute equals the flag of
an `Add`/`Sub` whose second operand register holds 1. -/
theorem wrapping_arithmetic (st : St) (d a b z c idx : Nat)
    (hlen : st.registers.length = 8) (hd : d < 8)
    (ha : regGet st a = wordMod - 1) (hb : regGet st b = 1)
    (hz : regGet st z = 0) :
    (∃ s, applyI (.add d a b) st idx = .ok (s, idx + 1)
      ∧ regGet s d = 0 ∧ s.zero = true)
    ∧ (∃ s, applyI (.sub d z b) st idx = .ok (s, idx + 1)
      ∧ regGet s d = wordMod - 1 ∧ s.zero = false)
    ∧ zeroAfter (.inc c) st idx = zeroAfter (.add d c b) st idx
    ∧ zeroAfter (.dec c) st idx = zeroAfter (.sub d c b) st idx := by
  have hd' : d < st.registers.length := by rw [hlen]; exact hd
  refine ⟨⟨_, rfl, ?_, ?_⟩, ⟨_, rfl, ?_, ?_⟩, ?_, ?_⟩
  · rw [ha, hb, regGet_withZero _ _ _ hd']
    decide
  · rw [ha, hb, withZero_zero]
    decide
  · rw [hz, hb, regGet_withZero _ _ _ hd']
    decide
  · rw [hz, hb, withZero_zero]
    decide
  · simp [zeroAfter, applyI, withZero_zero, hb]
  · simp [zeroAfter, applyI, withZero_zero, hb]

/-- Registers holding the maximal value at 0, one at 1, zero at 2. -/
def wrapSt : St := ⟨[wordMod - 1, 1, 0, 0, 0, 0, 0, 0], false, []⟩

/-- C5 witness: the `Inc`-vs-`Add` flag identity at a concrete state. -/
theorem wrapping_arithmetic_witness :
    zeroAfter (.inc 4) wrapSt 0 = zeroAfter (.add 3 4 1) wrapSt 0 :=
  (wrapping_arithmetic wrapSt 3 0 1 2 4 0 (by decide) (by decide)
    (by decide) (by decide) (by decide)).2.2.1

/-- The three-line forward-reference program `j fwd / inc r0 / fwd:`. -/
def fwdLines : List (List Char) :=
  [['j', ' ', 'f', 'w', 'd'], ['i', 'n', 'c', ' ', 'r', '0'], ['f', 'w', 'd', ':']]

/-- Its parsed instruction sequence. -/
def fwdProg : List Instruction :=
  [.j ['f', 'w', 'd'], .inc 0, .noop]

/-- Its parsed state: label `fwd` at index 2. -/
def fwdSt : St := ⟨List.replicate 8 0, false, [(['f', 'w', 'd'], 2)]⟩

/-- C7.  A jump whose label is absent from the table is accepted by the
parser and only fails when it executes and is taken, with the fatal
`unknown label` error naming the 1-based line of the jump; a not-taken
conditional jump does not fail.  Forward references work: `j fwd`
before `fwd:` jumps to index 2, skipping the `inc`, because the table
is complete before execution starts. -/
theorem unknown_label_at_runtime (st : St) (l : List Char) (idx : Nat)
    (habs : lookupLbl st.labels l = none) :
    applyI (.j l) st idx = .error (.unknownLabel l (idx + 1))
    ∧ (st.zero = true → applyI (.jz l) st idx = .error (.unknownLabel l (idx + 1)))
    ∧ (st.zero = false → applyI (.jz l) st idx = .ok (st, idx + 1))
    ∧ (st.zero = false → applyI (.jnz l) st idx = .error (.unknownLabel l (idx + 1)))
    ∧ (st.zero = true → applyI (.jnz l) st idx = .ok (st, idx + 1))
    ∧ parseLine St.init 0 ['j', ' ', 'n', 'o', 'p', 'e']
        = .ok (.j ['n', 'o', 'p', 'e'], St.init)
    ∧ parseProgram fwdLines St.init = .ok (fwdProg, fwdSt)
    ∧ runMachine 4 fwdProg fwdSt 0 = .ok (some fwdSt)
    ∧ regGet fwdSt 0 = 0 := by
  refine ⟨?_, ?_, ?_, ?_, ?_, by decide, by decide, by decide, by decide⟩
  · simp [applyI, jumpTo, habs]
  · intro h; simp [applyI, jumpTo, habs, h]
  · intro h; simp [applyI, jumpTo, habs, h]
  · intro h; simp [applyI, jumpTo, habs, h]
  · intro h; simp [applyI, jumpTo, habs, h]

/-- C7 witness: jumping to an undeclared label from the initial state. -/
theorem unknown_label_at_runtime_witness :
    applyI (.j ['q']) St.init 0 = .error (.unknownLabel ['q'] 1)
    ∧ applyI (.jz ['q']) St.init 0 = .ok (St.init, 1) :=
  ⟨(unknown_label_at_runtime St.init ['q'] 0 rfl).1,
    (unknown_label_at_runtime St.init ['q'] 0 rfl).2.2.1 rfl⟩

/-- Reading back a register just written by the override loop. -/
theorem regGet_regSet (st : St) (r v : Nat) (h : r < st.registers.length) :
    regGet (regSet st r v) r = v := by
  simp [regGet, regSet, List.getD_eq_getElem?_getD,
    List.getElem?_set_eq_of_lt _ h]

/-- C8.  A well-formed override `r<N>=<value>`/`R<N>=<value>` with
`N < 8` is accepted and seeds register `N` with the value's unsigned
64-bit pattern before execution; any accepted override has `N < 8`; a
failing override list makes the whole pipeline fail with that argument
error no matter what the program text is, i.e. before parsing or
execution; `r3=5` seeds register 3 with 5, `r3=-1` with the all-ones
pattern, `r9=0` is the fatal `r9 does not exist`, and an `=`-less
argument is the fatal `Unable to parse arg`. -/
theorem register_overrides :
    (∀ (arg before after tail : List Char) (n v : Nat),
      splitOnce ['='] arg = some (before, after) →
      (before = 'r' :: tail ∨ before = 'R' :: tail) →
      parseUnsigned? 64 tail = some n → n < 8 →
      parseValue? after = some v →
      interpretArg arg = .ok (n, v))
    ∧ (∀ (arg : List Char) (n v : Nat), interpretArg arg = .ok (n, v) → n < 8)
    ∧ (∀ (arg : List Char) (n v : Nat) (st : St), st.registers.length = 8 →
        interpretArg arg = .ok (n, v) →
        applyArgs [arg] st = .ok (regSet st n v) ∧ regGet (regSet st n v) n = v)
    ∧ (∀ (args : List (List Char)) (e : MainErr),
        applyArgs args St.init = .error e →
        ∀ (lines : List (List Char)) (fuel : Nat), mainRun args lines fuel = .error e)
    ∧ interpretArg ['r', '3', '=', '5'] = .ok (3, 5)
    ∧ interpretArg ['R', '3', '=', '5'] = .ok (3, 5)
    ∧ interpretArg ['r', '3', '=', '-', '1'] = .ok (3, wordMod - 1)
    ∧ applyArgs [['r', '3', '=', '5']] St.init = .ok (regSet St.init 3 5)
    ∧ regGet (regSet St.init 3 5) 3 = 5
    ∧ applyArgs [['r', '3', '=', '-', '1']] St.init = .ok (regSet St.init 3 (wordMod - 1))
    ∧ regGet (regSet St.init 3 (wordMod - 1)) 3 = wordMod - 1
    ∧ interpretArg ['r', '9', '=', '0'] = .error (.regNotExistArg 9)
    ∧ interpretArg ['o', 'o', 'p', 's'] = .error (.badArg ['o', 'o', 'p', 's']) := by
  have key : ∀ (arg : List Char) (n v : Nat),
      interpretArg arg = .ok (n, v) → n < 8 := by
    intro arg n v h
    unfold interpretArg at h
    repeat' split at h
    all_goals simp_all
  refine ⟨?_, key, ?_, ?_, by decide, by decide, by decide, by decide,
    by decide, by decide, by decide, by decide, by decide⟩
  · intro arg before after tail n v h1 h2 h3 h4 h5
    rcases h2 with rfl | rfl <;>
      simp [interpretArg, h1, h3, h5, Nat.not_le.mpr h4]
  · intro arg n v st hlen h
    have hn : n < 8 := key arg n v h
    refine ⟨by simp [applyArgs, h], regGet_regSet st n v (by omega)⟩
  · intro args e h lines fuel
    simp [mainRun, h]

/-- C8 witness: the well-formedness clause applied to `r3=5`, and the
fail-before-parse clause applied to a bad argument with a program that
would itself parse. -/
theorem register_overrides_witness :
    interpretArg ['r', '3', '=', '5'] = .ok (3, 5)
    ∧ mainRun [['z']] [['z', 'e', 'r', 'o', ' ', 'r', '0']] 7 = .error (.badArg ['z']) :=
  ⟨register_overrides.1 ['r', '3', '=', '5'] ['r', '3'] ['5'] ['3'] 3 5
      (by decide) (Or.inl rfl) (by decide) (by decide) (by decide),
    register_overrides.2.2.2.1 [['z']] (.badArg ['z']) (by decide)
      [['z', 'e', 'r', 'o', ' ', 'r', '0']] 7⟩

/-- A line with no tokens after stripping parses to `Noop` and leaves
the state untouched. -/
theorem parseLine_blank (st : St) (i : Nat) (src : List Char)
    (h : splitWs (stripComment (src.map lowerC)) = []) :
    parseLine st i src = .ok (.noop, st) := by
  simp [parseLine, h]

/-- What one successful `parseLine` does to the state: registers and
flag are never touched; a label-declaration line prepends its `(name,
index)` pair to the table and yields `Noop`; every other line leaves
the table unchanged. -/
theorem parseLine_spec (st : St) (i : Nat) (src : List Char)
    (ins : Instruction) (st2 : St)
    (h : parseLine st i src = .ok (ins, st2)) :
    st2.registers = st.registers ∧ st2.zero = st.zero ∧
    (match labelOf src with
     | some s => st2.labels = (s, i) :: st.labels ∧ ins = .noop
     | none => st2.labels = st.labels) := by
  cases htk : splitWs (stripComment (src.map lowerC)) with
  | nil =>
    simp only [parseLine, htk, Except.ok.injEq, Prod.mk.injEq] at h
    obtain ⟨rfl, rfl⟩ := h
    simp [labelOf, htk]
  | cons first rest =>
    simp only [parseLine, htk, parseInstr] at h
    cases hm : mnemonic? first with
    | some m =>
      simp only [hm, Option.map_some'] at h
      cases hpo : parseOps m i (splitSep ',' rest.flatten) with
      | error e => rw [hpo] at h; cases h
      | ok v =>
        rw [hpo] at h
        simp only [Except.ok.injEq, Prod.mk.injEq] at h
        obtain ⟨rfl, rfl⟩ := h
        simp [labelOf, htk, hm]
    | none =>
      simp only [hm, Option.map_none'] at h
      cases hsp : splitOnce [':'] first with
      | some p =>
        simp only [hsp, Except.ok.injEq, Prod.mk.injEq] at h
        obtain ⟨rfl, rfl⟩ := h
        simp [labelOf, htk, hm, hsp, addLabel]
      | none => simp only [hsp] at h; cases h

/-- Unfolding equation: no line, no declarations. -/
theorem declsOf_nil (i : Nat) : declsOf [] i = [] := rfl

/-- Unfolding equation: the declarations of `l :: ls` are those of `ls`
(shifted one line down) in front of the head's declaration, if any. -/
theorem declsOf_cons (l : List Char) (ls : List (List Char)) (i : Nat) :
    declsOf (l :: ls) i =
      declsOf ls (i + 1) ++ (match labelOf l with | some s => [(s, i)] | none => []) :=
  rfl

/-- What a successful parse of a suffix of the source does: one
instruction per line, the label table grows by exactly the declarations
of those lines (most recent first), and blank or label lines become
`Noop`. -/
theorem parseGo_spec : ∀ (ls : List (List Char)) (i : Nat) (st : St)
    (p : List Instruction) (st2 : St),
    parseGo ls i st = .ok (p, st2) →
    p.length = ls.length
    ∧ st2.labels = declsOf ls i ++ st.labels
    ∧ (∀ k, k < ls.length →
        (splitWs (stripComment ((ls.getD k []).map lowerC)) = []
          ∨ labelOf (ls.getD k []) ≠ none) →
        p.getD k .noop = .noop) := by
  intro ls
  induction ls with
  | nil =>
    intro i st p st2 h
    simp only [parseGo, Except.ok.injEq, Prod.mk.injEq] at h
    obtain ⟨rfl, rfl⟩ := h
    simp [declsOf]
  | cons l tl ih =>
    intro i st p st2 h
    simp only [parseGo] at h
    cases hl1 : parseLine st i l with
    | error e => rw [hl1] at h; cases h
    | ok pr =>
      obtain ⟨ins, st1⟩ := pr
      rw [hl1] at h
      cases hgo : parseGo tl (i + 1) st1 with
      | error e => simp only [hgo] at h; cases h
      | ok pr2 =>
        obtain ⟨rest, stf⟩ := pr2
        simp only [hgo, Except.ok.injEq, Prod.mk.injEq] at h
        obtain ⟨rfl, rfl⟩ := h
        obtain ⟨hr1, hz1, hlab⟩ := parseLine_spec st i l ins st1 hl1
        obtain ⟨ihlen, ihlab, ihnoop⟩ := ih (i + 1) st1 rest stf hgo
        refine ⟨by simp [ihlen], ?_, ?_⟩
        · rw [ihlab, declsOf_cons]
          cases hlo : labelOf l with
          | some s =>
            rw [hlo] at hlab
            rw [hlab.1]
            simp
          | none =>
            rw [hlo] at hlab
            rw [hlab]
            simp
        · intro k hk hcond
          cases k with
          | zero =>
            simp only [List.getD_cons_zero] at hcond ⊢
            rcases hcond with hb | hnl
            · have hbl := parseLine_blank st i l hb
              rw [hl1] at hbl
              simp only [Except.ok.injEq, Prod.mk.injEq] at hbl
              exact hbl.1
            · cases hlo : labelOf l with
              | some s =>
                rw [hlo] at hlab
                exact hlab.2
              | none => rw [hlo] at hnl; simp at hnl
          | succ k =>
            simp only [List.getD_cons_succ] at hcond ⊢
            have hk' : k < tl.length := by
              simp only [List.length_cons] at hk
              omega
            exact ihnoop k hk' hcond

/-- Label lookup scans appended tables left to right. -/
theorem lookupLbl_append (a b : List (List Char × Nat)) (s : List Char) :
    lookupLbl (a ++ b) s =
      match lookupLbl a s with
      | some v => some v
      | none => lookupLbl b s := by
  simp only [lookupLbl, List.find?_append]
  cases h : a.find? (fun p => p.1 = s) <;> simp [h]

/-- Lookup in the declaration table misses exactly when no line of the
suffix declares the label. -/
theorem lookup_declsOf_none : ∀ (ls : List (List Char)) (i : Nat) (s : List Char),
    lookupLbl (declsOf ls i) s = none ↔
      ∀ k, k < ls.length → labelOf (ls.getD k []) ≠ some s := by
  intro ls
  induction ls with
  | nil => intro i s; simp [declsOf_nil, lookupLbl]
  | cons l tl ih =>
    intro i s
    rw [declsOf_cons, lookupLbl_append]
    cases htl : lookupLbl (declsOf tl (i + 1)) s with
    | some v =>
      have hne : ¬ ∀ k, k < tl.length → labelOf (tl.getD k []) ≠ some s := by
        intro hall
        have hnone := (ih (i + 1) s).mpr hall
        rw [htl] at hnone
        cases hnone
      constructor
      · intro hC; exact absurd hC (by simp)
      · intro hR
        exfalso
        apply hne
        intro k hk
        have := hR (k + 1) (by simp only [List.length_cons]; omega)
        simpa [List.getD_cons_succ] using this
    | none =>
      have htl' := (ih (i + 1) s).mp htl
      cases hlo : labelOf l with
      | some s0 =>
        by_cases hs : s0 = s
        · subst hs
          have e : lookupLbl [(s0, i)] s0 = some i := by simp [lookupLbl]
          show lookupLbl [(s0, i)] s0 = none ↔ _
          rw [e]
          constructor
          · intro hC; cases hC
          · intro hR
            exact absurd (by simpa using hlo) (hR 0 (by simp))
        · have e : lookupLbl [(s0, i)] s = none := by simp [lookupLbl, hs]
          show lookupLbl [(s0, i)] s = none ↔ _
          rw [e]
          constructor
          · intro _ k hk
            cases k with
            | zero =>
              simp only [List.getD_cons_zero, hlo, ne_eq, Option.some.injEq]
              exact hs
            | succ k' =>
              simp only [List.getD_cons_succ]
              exact htl' k' (by simp only [List.length_cons] at hk; omega)
          · intro _; rfl
      | none =>
        show lookupLbl [] s = none ↔ _
        constructor
        · intro _ k hk
          cases k with
          | zero => simp [List.getD_cons_zero, hlo]
          | succ k' =>
            simp only [List.getD_cons_succ]
            exact htl' k' (by simp only [List.length_cons] at hk; omega)
        · intro _; rfl

/-- Lookup in the declaration table hits exactly the LAST declaration of
the label: the returned index is `i` plus the position of the latest
line of the suffix declaring it. -/
theorem lookup_declsOf_some : ∀ (ls : List (List Char)) (i : Nat) (s : List Char) (jv : Nat),
    lookupLbl (declsOf ls i) s = some jv ↔
      ∃ k, k < ls.length ∧ jv = i + k ∧ labelOf (ls.getD k []) = some s ∧
        ∀ m, k < m → m < ls.length → labelOf (ls.getD m []) ≠ some s := by
  intro ls
  induction ls with
  | nil => intro i s jv; simp [declsOf_nil, lookupLbl]
  | cons l tl ih =>
    intro i s jv
    rw [declsOf_cons, lookupLbl_append]
    cases htl : lookupLbl (declsOf tl (i + 1)) s with
    | some v =>
      obtain ⟨k0, hk0, hv, hlab0, hlater0⟩ := (ih (i + 1) s v).mp htl
      constructor
      · intro hC
        have hC' : some v = some jv := hC
        have hjv : v = jv := by injection hC'
        subst hjv
        refine ⟨k0 + 1, by simp only [List.length_cons]; omega, by omega, ?_, ?_⟩
        · simpa [List.getD_cons_succ] using hlab0
        · intro m hm1 hm2
          cases m with
          | zero => omega
          | succ m' =>
            simp only [List.getD_cons_succ]
            exact hlater0 m' (by omega) (by simp only [List.length_cons] at hm2; omega)
      · rintro ⟨k, hk, hjv, hlab, hlater⟩
        cases k with
        | zero =>
          exfalso
          have := hlater (k0 + 1) (by omega) (by simp only [List.length_cons]; omega)
          simp only [List.getD_cons_succ] at this
          exact this hlab0
        | succ k' =>
          have hk' : k' < tl.length := by simp only [List.length_cons] at hk; omega
          have hjv' : lookupLbl (declsOf tl (i + 1)) s = some jv := by
            rw [ih (i + 1) s jv]
            refine ⟨k', hk', by omega, by simpa [List.getD_cons_succ] using hlab, ?_⟩
            intro m hm1 hm2
            have := hlater (m + 1) (by omega) (by simp only [List.length_cons]; omega)
            simpa [List.getD_cons_succ] using this
          rw [htl] at hjv'
          exact hjv'
    | none =>
      have htl' := (lookup_declsOf_none tl (i + 1) s).mp htl
      cases hlo : labelOf l with
      | some s0 =>
        by_cases hs : s0 = s
        · subst hs
          have e : lookupLbl [(s0, i)] s0 = some i := by simp [lookupLbl]
          show lookupLbl [(s0, i)] s0 = some jv ↔ _
          rw [e]
          constructor
          · intro hC
            have hji : i = jv := by injection hC
            refine ⟨0, by simp, by omega, by simpa using hlo, ?_⟩
            intro m hm1 hm2
            cases m with
            | zero => omega
            | succ m' =>
              simp only [List.getD_cons_succ]
              exact htl' m' (by simp only [List.length_cons] at hm2; omega)
          · rintro ⟨k, hk, hjv, hlab, hlater⟩
            cases k with
            | zero => simp [hjv]
            | succ k' =>
              exfalso
              have hk' : k' < tl.length := by simp only [List.length_cons] at hk; omega
              have := htl' k' hk'
              simp only [List.getD_cons_succ] at hlab
              exact this hlab
        · have e : lookupLbl [(s0, i)] s = none := by simp [lookupLbl, hs]
          show lookupLbl [(s0, i)] s = some jv ↔ _
          rw [e]
          constructor
          · intro hC; cases hC
          · rintro ⟨k, hk, hjv, hlab, hlater⟩
            exfalso
            cases k with
            | zero =>
              simp only [List.getD_cons_zero, hlo, Option.some.injEq] at hlab
              exact hs hlab
            | succ k' =>
              have hk' : k' < tl.length := by simp only [List.length_cons] at hk; omega
              simp only [List.getD_cons_succ] at hlab
              exact htl' k' hk' hlab
      | none =>
        show lookupLbl [] s = some jv ↔ _
        constructor
        · intro hC; cases hC
        · rintro ⟨k, hk, hjv, hlab, hlater⟩
          exfalso
          cases k with
          | zero => simp [List.getD_cons_zero, hlo] at hlab
          | succ k' =>
            have hk' : k' < tl.length := by simp only [List.length_cons] at hk; omega
            simp only [List.getD_cons_succ] at hlab
            exact htl' k' hk' hlab

/-- C6.  A successful parse (from the empty label table `main` starts
with) yields exactly one instruction per source line; every blank,
comment-only or label-declaration line becomes `Noop`; and the label
table maps a name to `jv` exactly when line `jv` declares it and no
later line re-declares it — i.e. every declared label resolves to the
0-based index of its LAST declaration. -/
theorem parse_alignment_and_labels (lines : List (List Char)) (st0 : St)
    (prog : List Instruction) (stp : St) (h0 : st0.labels = [])
    (h : parseProgram lines st0 = .ok (prog, stp)) :
    prog.length = lines.length
    ∧ (∀ k, k < lines.length →
        (splitWs (stripComment ((lines.getD k []).map lowerC)) = []
          ∨ labelOf (lines.getD k []) ≠ none) →
        prog.getD k .noop = .noop)
    ∧ (∀ (s : List Char) (jv : Nat),
        lookupLbl stp.labels s = some jv ↔
          (jv < lines.length ∧ labelOf (lines.getD jv []) = some s
            ∧ ∀ m, jv < m → m < lines.length → labelOf (lines.getD m []) ≠ some s)) := by
  obtain ⟨hlen, hlab, hnoop⟩ := parseGo_spec lines 0 st0 prog stp h
  refine ⟨hlen, hnoop, ?_⟩
  intro s jv
  rw [hlab, h0, List.append_nil, lookup_declsOf_some]
  constructor
  · rintro ⟨k, hk, hj, hla, hlater⟩
    have : jv = k := by omega
    subst this
    exact ⟨hk, hla, hlater⟩
  · rintro ⟨h1, h2, h3⟩
    exact ⟨jv, h1, by omega, h2, h3⟩

/-- The three-line program `x:` / blank / `x: ; c` with a duplicate
label declaration. -/
def dupLines : List (List Char) :=
  [['x', ':'], [], ['x', ':', ' ', ';', ' ', 'c']]

/-- Its parsed instruction sequence: three `Noop`s. -/
def dupProg : List Instruction := [.noop, .noop, .noop]

/-- Its parsed state: both declarations of `x` recorded, the later one
in front. -/
def dupSt : St := ⟨List.replicate 8 0, false, [(['x'], 2), (['x'], 0)]⟩

/-- C6 witness: alignment and last-wins lookup on the concrete
duplicate-label program. -/
theorem parse_alignment_and_labels_witness :
    dupProg.length = dupLines.length
    ∧ dupProg.getD 0 .noop = .noop
    ∧ lookupLbl dupSt.labels ['x'] = some 2 :=
  ⟨(parse_alignment_and_labels dupLines St.init dupProg dupSt rfl (by decide)).1,
    (parse_alignment_and_labels dupLines St.init dupProg dupSt rfl (by decide)).2.1
      0 (by decide) (Or.inr (by decide)),
    ((parse_alignment_and_labels dupLines St.init dupProg dupSt rfl (by decide)).2.2
      ['x'] 2).mpr ⟨by decide, by decide, by
        intro m h1 h2
        simp only [dupLines, List.length_cons, List.length_nil] at h2
        omega⟩⟩

/-- Execution never touches the label table. -/
theorem applyI_labels (i : Instruction) (st : St) (idx : Nat)
    (st2 : St) (pc2 : Nat) (h : applyI i st idx = .ok (st2, pc2)) :
    st2.labels = st.labels := by
  cases i
  case jz l =>
    simp only [applyI] at h
    cases hz : st.zero with
    | false =>
      rw [hz] at h
      simp only [Bool.false_eq_true, if_false, Except.ok.injEq, Prod.mk.injEq] at h
      obtain ⟨rfl, rfl⟩ := h
      rfl
    | true =>
      rw [hz] at h
      simp only [if_true] at h
      cases hl : lookupLbl st.labels l with
      | none => simp [jumpTo, hl] at h
      | some t =>
        simp only [jumpTo, hl, Except.ok.injEq, Prod.mk.injEq] at h
        obtain ⟨rfl, rfl⟩ := h
        rfl
  case jnz l =>
    simp only [applyI] at h
    cases hz : st.zero with
    | true =>
      rw [hz] at h
      simp only [Bool.not_true, Bool.false_eq_true, if_false,
        Except.ok.injEq, Prod.mk.injEq] at h
      obtain ⟨rfl, rfl⟩ := h
      rfl
    | false =>
      rw [hz] at h
      simp only [Bool.not_false, if_true] at h
      cases hl : lookupLbl st.labels l with
      | none => simp [jumpTo, hl] at h
      | some t =>
        simp only [jumpTo, hl, Except.ok.injEq, Prod.mk.injEq] at h
        obtain ⟨rfl, rfl⟩ := h
        rfl
  case j l =>
    simp only [applyI] at h
    cases hl : lookupLbl st.labels l with
    | none => simp [jumpTo, hl] at h
    | some t =>
      simp only [jumpTo, hl, Except.ok.injEq, Prod.mk.injEq] at h
      obtain ⟨rfl, rfl⟩ := h
      rfl
  all_goals
    simp only [applyI, Except.ok.injEq, Prod.mk.injEq] at h
  all_goals
    obtain ⟨rfl, rfl⟩ := h
  all_goals rfl

/-- A failing execution step is always an `unknown label` error. -/
theorem applyI_error_shape (i : Instruction) (st : St) (idx : Nat)
    (e : ExecErr) (h : applyI i st idx = .error e) :
    ∃ l n, e = .unknownLabel l n := by
  cases i
  case jz l =>
    simp only [applyI] at h
    cases hz : st.zero with
    | false =>
      rw [hz] at h
      simp at h
    | true =>
      rw [hz] at h
      simp only [if_true] at h
      cases hl : lookupLbl st.labels l with
      | none =>
        simp only [jumpTo, hl, Except.error.injEq] at h
        exact ⟨l, idx + 1, h.symm⟩
      | some t => simp [jumpTo, hl] at h
  case jnz l =>
    simp only [applyI] at h
    cases hz : st.zero with
    | true =>
      rw [hz] at h
      simp at h
    | false =>
      rw [hz] at h
      simp only [Bool.not_false, if_true] at h
      cases hl : lookupLbl st.labels l with
      | none =>
        simp only [jumpTo, hl, Except.error.injEq] at h
        exact ⟨l, idx + 1, h.symm⟩
      | some t => simp [jumpTo, hl] at h
  case j l =>
    simp only [applyI] at h
    cases hl : lookupLbl st.labels l with
    | none =>
      simp only [jumpTo, hl, Except.error.injEq] at h
      exact ⟨l, idx + 1, h.symm⟩
    | some t => simp [jumpTo, hl] at h
  all_goals simp only [applyI] at h
  all_goals exact Except.noConfusion h

/-- A successful step from a program counter below the bound, with all
label targets below the bound, lands at or below the bound. -/
theorem applyI_next_le (N : Nat) (i : Instruction) (st : St) (idx : Nat)
    (st2 : St) (pc2 : Nat)
    (hB : ∀ s t, lookupLbl st.labels s = some t → t < N)
    (hidx : idx < N) (h : applyI i st idx = .ok (st2, pc2)) :
    pc2 ≤ N := by
  cases i
  case jz l =>
    simp only [applyI] at h
    cases hz : st.zero with
    | false =>
      rw [hz] at h
      simp only [Bool.false_eq_true, if_false, Except.ok.injEq, Prod.mk.injEq] at h
      omega
    | true =>
      rw [hz] at h
      simp only [if_true] at h
      cases hl : lookupLbl st.labels l with
      | none => simp [jumpTo, hl] at h
      | some t =>
        simp only [jumpTo, hl, Except.ok.injEq, Prod.mk.injEq] at h
        have := hB l t hl
        omega
  case jnz l =>
    simp only [applyI] at h
    cases hz : st.zero with
    | true =>
      rw [hz] at h
      simp only [Bool.not_true, Bool.false_eq_true, if_false,
        Except.ok.injEq, Prod.mk.injEq] at h
      omega
    | false =>
      rw [hz] at h
      simp only [Bool.not_false, if_true] at h
      cases hl : lookupLbl st.labels l with
      | none => simp [jumpTo, hl] at h
      | some t =>
        simp only [jumpTo, hl, Except.ok.injEq, Prod.mk.injEq] at h
        have := hB l t hl
        omega
  case j l =>
    simp only [applyI] at h
    cases hl : lookupLbl st.labels l with
    | none => simp [jumpTo, hl] at h
    | some t =>
      simp only [jumpTo, hl, Except.ok.injEq, Prod.mk.injEq] at h
      have := hB l t hl
      omega
  all_goals
    simp only [applyI, Except.ok.injEq, Prod.mk.injEq] at h
  all_goals omega

/-- The fetch-execute loop never attempts an out-of-range fetch as long
as every label target is below the instruction count and the program
counter starts at or below it. -/
theorem runMachine_no_oob : ∀ (fuel : Nat) (prog : List Instruction)
    (st : St) (pc q : Nat),
    (∀ s t, lookupLbl st.labels s = some t → t < prog.length) →
    pc ≤ prog.length →
    runMachine fuel prog st pc ≠ .error (.oob q) := by
  intro fuel
  induction fuel with
  | zero =>
    intro prog st pc q hB hpc
    simp [runMachine]
  | succ f ih =>
    intro prog st pc q hB hpc
    by_cases he : pc = prog.length
    · unfold runMachine
      simp [he]
    · have hlt : pc < prog.length := lt_of_le_of_ne hpc he
      cases hg : prog.get? pc with
      | none =>
        rw [List.get?_eq_none] at hg
        omega
      | some ins =>
        intro hcontra
        unfold runMachine at hcontra
        rw [if_neg he, hg] at hcontra
        have hcontra :
            (match applyI ins st pc with
             | .error e => .error e
             | .ok (st1, pc1) => runMachine f prog st1 pc1)
              = Except.error (ExecErr.oob q) := hcontra
        cases ha : applyI ins st pc with
        | error e =>
          rw [ha] at hcontra
          obtain ⟨l', n', rfl⟩ := applyI_error_shape ins st pc e ha
          simp at hcontra
        | ok pr =>
          obtain ⟨st1, pc1⟩ := pr
          rw [ha] at hcontra
          have hlab := applyI_labels ins st pc st1 pc1 ha
          have hle := applyI_next_le prog.length ins st pc st1 pc1 hB hlt ha
          exact ih prog st1 pc1 q (by rw [hlab]; exact hB) hle hcontra

/-- C10.  After any successful parse from an empty label table, every
index stored in the label table is strictly below the instruction
count (it is the 0-based index of some source line), and consequently
the fetch-execute loop, started anywhere at or below the instruction
count with that table, never fetches past the end of the instruction
sequence. -/
theorem label_indices_bounded_safe_fetch (lines : List (List Char))
    (st0 : St) (prog : List Instruction) (stp : St)
    (h0 : st0.labels = []) (h : parseProgram lines st0 = .ok (prog, stp)) :
    (∀ s t, lookupLbl stp.labels s = some t → t < prog.length)
    ∧ (∀ (fuel : Nat) (st : St) (pc q : Nat), st.labels = stp.labels →
        pc ≤ prog.length → runMachine fuel prog st pc ≠ .error (.oob q)) := by
  obtain ⟨hlen, hlab, _⟩ := parseGo_spec lines 0 st0 prog stp h
  have hbound : ∀ s t, lookupLbl stp.labels s = some t → t < prog.length := by
    intro s t hst
    rw [hlab, h0, List.append_nil, lookup_declsOf_some] at hst
    obtain ⟨k, hk, hkt, _, _⟩ := hst
    omega
  refine ⟨hbound, ?_⟩
  intro fuel st pc q hstl hpc
  exact runMachine_no_oob fuel prog st pc q (by rw [hstl]; exact hbound) hpc

/-- C10 witness: the parsed forward-jump program runs to completion and
in particular never out-of-bounds. -/
theorem label_indices_bounded_safe_fetch_witness :
    runMachine 4 fwdProg fwdSt 0 = .ok (some fwdSt)
    ∧ runMachine 4 fwdProg fwdSt 0 ≠ .error (.oob 5) :=
  ⟨by decide,
    (label_indices_bounded_safe_fetch fwdLines St.init fwdProg fwdSt rfl
      (by decide)).2 4 fwdSt 0 5 rfl (by decide)⟩

end BasicAsm
